import Mathlib

/-!
Verification of the syspkg output-parsing and state-reconciliation engine.

This file gives a shallow embedding, in Lean, of the text parsers and the
dpkg-query status reconciler of the syspkg repository (packages `apt` and
`manager/dnf`), and proves or refutes the specification claims about them.

Conventions of the embedding:
* Go strings are Lean `String`s; all inputs considered are ASCII, so Go's
  byte-wise operations and Lean's character-wise operations agree.
* Go functions that can panic (index out of range on a slice) are embedded
  as `Option`-returning functions; `none` models the panic.
* The Go regexes are embedded as explicit leftmost-match scanners.  For each
  regex the character classes involved are disjoint from the delimiters that
  follow them, so the greedy maximal-munch scan implemented here coincides
  with Go's (RE2, leftmost-first) matching; the justification is recorded at
  each definition.
* A Go `map[string]PackageInfo` is embedded as an association list with
  pairwise-distinct keys (`List (String × PackageInfo)`); `delete` becomes a
  filter on the key, which agrees with Go's `delete` on such lists.
-/

namespace Syspkg

/-- Character set of Go `unicode.IsSpace` restricted to Latin-1 (the inputs
considered are ASCII): space, tab, newline, vertical tab, form feed,
carriage return, NEL and NBSP.  Used by `strings.Fields` and
`strings.TrimSpace`. -/
def goSpace (c : Char) : Bool :=
  c = ' ' || c = '\t' || c = '\n' || c = '\x0b' || c = '\x0c' || c = '\r' ||
  c = '\x85' || c = '\xa0'

/-- Negation of `goSpace`, the token characters of `strings.Fields`. -/
def notSpace (c : Char) : Bool := !(goSpace c)

/-- Character class `\s` of Go's `regexp` (RE2 Perl class): `[\t\n\f\r ]`. -/
def reSpace (c : Char) : Bool :=
  c = '\t' || c = '\n' || c = '\x0c' || c = '\r' || c = ' '

/-- Character class `\S` of Go's `regexp`. -/
def reNonSpace (c : Char) : Bool := !(reSpace c)

/-- Character class `\w` of Go's `regexp` (ASCII): `[0-9A-Za-z_]`. -/
def wordChar (c : Char) : Bool := c.isAlphanum || c = '_'

/-- Split a character list at every character satisfying `p`, keeping empty
pieces (the shape of Go's `strings.Split`/`strings.FieldsFunc` scans).  The
result is always non-empty. -/
def splitAnyCl (p : Char → Bool) : List Char → List (List Char)
  | [] => [[]]
  | c :: cs =>
    if p c then [] :: splitAnyCl p cs
    else
      match splitAnyCl p cs with
      | h :: t => (c :: h) :: t
      | [] => [[c]]

/-- Go `strings.Fields` on a character list: the non-empty substrings between
maximal runs of `goSpace` characters. -/
def fieldsCl (l : List Char) : List (List Char) :=
  (splitAnyCl goSpace l).filter (fun t => decide (t ≠ []))

/-- Go `strings.Fields` on a Lean string. -/
def goFields (s : String) : List String := (fieldsCl s.data).map List.asString

/-- Go `strings.Split` with a one-character separator, keeping empty pieces
(Go's `strings.Split` semantics). -/
def splitCh (sep : Char) (l : List Char) : List (List Char) :=
  splitAnyCl (fun c => c = sep) l

/-- Split a string at every newline, Go's `strings.Split(s, "\n")`. -/
def splitNlStr (s : String) : List String := (splitCh '\n' s.data).map List.asString

/-- Go `strings.Split` with a multi-character separator: left-to-right scan for
non-overlapping occurrences.  The fuel argument (initially the input length)
only makes the recursion structural; it is never exhausted on the intended
calls since every step consumes at least one character. -/
def splitSubAux (sep : List Char) : Nat → List Char → List Char → List (List Char)
  | _, [], acc => [acc.reverse]
  | 0, l, acc => [acc.reverse ++ l]
  | fuel + 1, c :: cs, acc =>
    if sep ≠ [] ∧ sep.isPrefixOf (c :: cs) then
      acc.reverse :: splitSubAux sep fuel ((c :: cs).drop sep.length) []
    else
      splitSubAux sep fuel cs (c :: acc)

/-- Go `strings.Split(s, sep)` for a non-empty separator string. -/
def splitSubStr (s sep : String) : List String :=
  (splitSubAux sep.data s.data.length s.data []).map List.asString

/-- Go `strings/bytes.TrimSuffix` with a one-character suffix: drop one final
occurrence of `c` if present. -/
def trimLastCh (c : Char) (l : List Char) : List Char :=
  match l.getLast? with
  | some d => if d = c then l.dropLast else l
  | none => l

/-- Go `strings.TrimSuffix(s, suffix)` for a one-character suffix. -/
def trimLastChStr (c : Char) (s : String) : String := (trimLastCh c s.data).asString

/-- Go `strings.TrimPrefix(s, pre)`: drop `pre` if it heads `s`, else `s`. -/
def dropPreStr (s pre : String) : String :=
  if pre.data.isPrefixOf s.data then (s.data.drop pre.data.length).asString else s

/-- Does `pre` head the string `s`?  Models `strings.HasPrefix`. -/
def strStarts (s pre : String) : Bool := pre.data.isPrefixOf s.data

/-- Does the character list `pat` occur inside `l`?  Models
`strings/bytes.Contains`. -/
def hasSubCl (pat : List Char) : List Char → Bool
  | [] => pat.isEmpty
  | c :: cs => pat.isPrefixOf (c :: cs) || hasSubCl pat cs

/-- Go `strings.Contains(s, pat)`. -/
def strContains (s pat : String) : Bool := hasSubCl pat.data s.data

/-- Go `strings.TrimSpace` (it trims `unicode.IsSpace` from both ends). -/
def trimSpaceCl (l : List Char) : List Char :=
  ((l.dropWhile goSpace).reverse.dropWhile goSpace).reverse

/-- Go `strings.TrimSpace` on a string. -/
def trimSpaceStr (s : String) : String := (trimSpaceCl s.data).asString

/-- Go `strings.TrimRight(s, " ")`: drop trailing space characters. -/
def trimRightSpaces (l : List Char) : List Char :=
  (l.reverse.dropWhile (fun c => c = ' ')).reverse

/-- Strip a literal prefix, failing if absent (a step of a regex match). -/
def dropLit (lit l : List Char) : Option (List Char) :=
  if lit.isPrefixOf l then some (l.drop lit.length) else none

/-- Does the Go regex `^\d` match?  (`regexp.MustCompile("^\\d").MatchString`). -/
def headIsDigit (s : String) : Bool :=
  match s.data with
  | c :: _ => c.isDigit
  | [] => false

namespace manager

/-- Modelled from the spec: the canonical Package Record (`manager.PackageInfo`
of the external `syspkg/manager` module, which is not among the sources; only
its field names and their use sites appear in the repository).  All fields are
strings; a field omitted from a Go composite literal gets the zero value `""`. -/
structure PackageInfo where
  Name : String := ""
  Version : String := ""
  NewVersion : String := ""
  Category : String := ""
  Arch : String := ""
  Status : String := ""
  PackageManager : String := ""
deriving Repr, DecidableEq, Inhabited

/-- Modelled from the spec: the `installed` member of the status enumeration
`{installed, available, upgradable, config-files, unknown}` of the external
`manager` module (a string-valued enumeration; the concrete spellings follow
the spec's §3 status list and the constant names used by the sources). -/
def PackageStatusInstalled : String := "installed"

/-- Modelled from the spec: the `available` status member. -/
def PackageStatusAvailable : String := "available"

/-- Modelled from the spec: the `upgradable` status member. -/
def PackageStatusUpgradable : String := "upgradable"

/-- Modelled from the spec: the `config-files` status member. -/
def PackageStatusConfigFiles : String := "config-files"

/-- Modelled from the spec: the `unknown` status member. -/
def PackageStatusUnknown : String := "unknown"

end manager

namespace apt

/-- The backend tag of the `apt` package (`var pm string = "apt"`). -/
def pm : String := "apt"

/-- Character class `[\w\d.-]` of the `Setting up` regex. -/
def nameChar (c : Char) : Bool := wordChar c || c = '.' || c = '-'

/-- Character class `[\w\d]` (the architecture group of the `Setting up`
regex). -/
def archChar (c : Char) : Bool := wordChar c

/-- Character class `[\w\d\.-]` (the version group of the `Setting up`
regex). -/
def verChar (c : Char) : Bool := wordChar c || c = '.' || c = '-'

/-- Match the regex `Setting up ([\w\d.-]+):?([\w\d]+)? \(([\w\d\.-]+)\)`
anchored at the head of `l`, returning the three capture groups.

Maximal-munch scanning is faithful here: the name class excludes `':'` and
`' '`, the architecture class excludes `' '`, and the version class excludes
`')'`, so at every quantifier the greedy maximal run is the only candidate a
backtracking search could accept, and the `:?`/optional-architecture
alternatives are decided deterministically by the next character. -/
def settingUpAt (l : List Char) : Option (String × String × String) :=
  match dropLit ("Setting up ".data) l with
  | none => none
  | some r =>
    let name := r.takeWhile nameChar
    let r1 := r.dropWhile nameChar
    if name = [] then none
    else
      let ar :=
        match r1 with
        | ':' :: r1' => (r1'.takeWhile archChar, r1'.dropWhile archChar)
        | _ => (([] : List Char), r1)
      match dropLit (" (".data) ar.2 with
      | none => none
      | some r3 =>
        let ver := r3.takeWhile verChar
        let r4 := r3.dropWhile verChar
        if ver = [] then none
        else
          match r4 with
          | ')' :: _ => some (name.asString, ar.1.asString, ver.asString)
          | _ => none

/-- Leftmost match of the `Setting up` regex in a line
(`FindStringSubmatch`): try each start position from the left. -/
def settingUpFind : List Char → Option (String × String × String)
  | [] => none
  | c :: t =>
    match settingUpAt (c :: t) with
    | some x => some x
    | none => settingUpFind t

/-- The loop body of `apt.ParseInstallOutput`: append a record for a line
matching the `Setting up` regex (the verbose-logging branch of the source
does not affect the result and is omitted). -/
def installStep (packages : List manager.PackageInfo) (line : String) :
    List manager.PackageInfo :=
  match settingUpFind line.data with
  | some (name, arch, version) =>
    if name = "" then packages
    else
      packages ++ [{ Name := name, Arch := dropPreStr arch ":",
                     Version := version, NewVersion := version,
                     Status := manager.PackageStatusInstalled,
                     PackageManager := pm }]
  | none => packages

/-- The function `apt.ParseInstallOutput`: trim one trailing newline, split into lines,
and run the `Setting up` line loop. -/
def ParseInstallOutput (msg : String) : List manager.PackageInfo :=
  (splitNlStr (trimLastChStr '\n' msg)).foldl installStep []

end apt

/-- A Go `map[string]manager.PackageInfo` as an association list; the
operations below keep its keys pairwise distinct. -/
abbrev PkgMap := List (String × manager.PackageInfo)

/-- Go map read `m[k]`. -/
def mapLookup (k : String) : PkgMap → Option manager.PackageInfo
  | [] => none
  | p :: m => if p.1 = k then some p.2 else mapLookup k m

/-- Go map write `m[k] = v` (replace if present, append otherwise). -/
def mapInsert (k : String) (v : manager.PackageInfo) (m : PkgMap) : PkgMap :=
  if (mapLookup k m).isSome then m.map (fun p => if p.1 = k then (k, v) else p)
  else m ++ [(k, v)]

/-- Go `delete(m, k)`: on a distinct-key association list, deleting the one
entry for `k` is filtering the key out. -/
def mapErase (k : String) (m : PkgMap) : PkgMap :=
  m.filter (fun p => decide (p.1 ≠ k))

namespace dnf

/-- The backend tag of the `dnf` package (`var pm string = "dnf"`). -/
def pm : String := "dnf"

/-- Split of the first capture groups of the dnf install regex
`^(\S+)\.(\S+)\s+(\S+)\s+@(\S+)`: the first whitespace-free token is split at
a dot with both sides non-empty.  The greedy first group makes Go pick the
rightmost such dot; the continuation after the token is independent of which
dot is chosen, so the rightmost valid dot is exactly the RE2 submatch. -/
def lastDotSplit (t : List Char) : Option (List Char × List Char) :=
  (List.range t.length).reverse.findSome? fun k =>
    if t.getD k ' ' = '.' ∧ 1 ≤ k ∧ k + 1 < t.length then
      some (t.take k, t.drop (k + 1))
    else none

/-- Match the dnf install regex `^(\S+)\.(\S+)\s+(\S+)\s+@(\S+)` at the head
of a line, returning (name, arch, version, category).  Each `\S+`/`\s+` run
is maximal-munch; that is faithful because a shorter run always leaves a
character of the same class where the opposite class is required. -/
def installLineMatch (l : List Char) : Option (String × String × String × String) :=
  let t1 := l.takeWhile reNonSpace
  match lastDotSplit t1 with
  | none => none
  | some (n, a) =>
    let r := l.dropWhile reNonSpace
    if r.takeWhile reSpace = [] then none
    else
      let r1 := r.dropWhile reSpace
      let v := r1.takeWhile reNonSpace
      if v = [] then none
      else
        let r2 := r1.dropWhile reNonSpace
        if r2.takeWhile reSpace = [] then none
        else
          match r2.dropWhile reSpace with
          | '@' :: r3 =>
            let cat := r3.takeWhile reNonSpace
            if cat = [] then none
            else some (n.asString, a.asString, v.asString, cat.asString)
          | _ => none

/-- The loop body of `dnf.ParseInstallOutput`: append a record per line
matching the fixed-column regex.  The source's composite literal sets no
`Status` field, so the record keeps the zero value. -/
def installStep (packages : List manager.PackageInfo) (line : String) :
    List manager.PackageInfo :=
  match installLineMatch line.data with
  | some (name, arch, version, category) =>
    packages ++ [{ Name := name, Version := version, Arch := arch,
                   Category := category, PackageManager := pm }]
  | none => packages

/-- The function `dnf.ParseInstallOutput`: split into lines (no newline trimming in this
variant) and run the fixed-column line loop. -/
def ParseInstallOutput (msg : String) : List manager.PackageInfo :=
  (splitNlStr msg).foldl installStep []

/-- Digits followed by a required separator character: one `\d+` step of the
version pattern of `parsePackageInfo`.  Maximal munch is faithful because a
digit is never the required separator. -/
def digitsThen (sep : Char) (l : List Char) : Option (List Char × List Char) :=
  let d := l.takeWhile Char.isDigit
  if d = [] then none
  else
    match l.dropWhile Char.isDigit with
    | c :: r => if c = sep then some (d, r) else none
    | [] => none

/-- Match `\d+\.\d+\.\d+-\d+\.(.+)$` (the tail of the `parsePackageInfo`
regex), returning (version group, architecture group). -/
def vaMatch (l : List Char) : Option (String × String) := do
  let (d1, r1) ← digitsThen '.' l
  let (d2, r2) ← digitsThen '.' r1
  let (d3, r3) ← digitsThen '-' r2
  let (d4, r4) ← digitsThen '.' r3
  if r4 = [] then none
  else some ((d1 ++ '.' :: d2 ++ '.' :: d3 ++ '-' :: d4).asString, r4.asString)

/-- Match the anchored regex
`^(?P<packageName>.+)-(?P<version>\d+\.\d+\.\d+-\d+)\.(?P<architecture>.+)$`.
The greedy `(.+)` name group makes Go split at the rightmost `-` whose tail
matches the version-dot-architecture pattern. -/
def nameVerArch (l : List Char) : Option (String × String × String) :=
  (List.range l.length).reverse.findSome? fun k =>
    if l.getD k ' ' = '-' ∧ 1 ≤ k then
      (vaMatch (l.drop (k + 1))).map fun p => ((l.take k).asString, p.1, p.2)
    else none

/-- The function `dnf.parsePackageInfo`: take the part before the first `':'`
(`strings.SplitN(input, ":", 2)[0]`), trim trailing spaces, and match the
name-version-architecture regex; a non-matching line yields the zero
`PackageInfo`. -/
def parsePackageInfo (input : String) : manager.PackageInfo :=
  let t := trimRightSpaces (input.data.takeWhile (fun c => decide (c ≠ ':')))
  match nameVerArch t with
  | none => {}
  | some (n, v, a) =>
    { Name := n, Version := v, NewVersion := v, Arch := a, PackageManager := pm }

/-- The 173-character `=` banner separator that `dnf.ParseFindOutput` splits
on. -/
def dnfSepLine : String := ⟨List.replicate 173 '='⟩

/-- The function `dnf.ParseFindOutput`: split the output on the `=` banner separator,
read the exact-match section (`sections[2]`) and the name-match section
(`sections[4]`), filter the candidate lines, and parse each one.  The Go
code indexes `sections[2]` and `sections[4]` unconditionally; `none` models
the panic when fewer than five sections exist. -/
def ParseFindOutput (msg : String) (exactMatch : Bool) : Option (List manager.PackageInfo) := do
  let sections := splitSubStr msg dnfSepLine
  let s2 ← sections.get? 2
  let s4 ← sections.get? 4
  let exactMatches := splitNlStr s2
  let nameMatches := splitNlStr s4
  let pm1 := exactMatches.foldl
    (fun acc line =>
      let line := trimSpaceStr line
      if line ≠ "" ∧ ¬ strStarts line "Name Exactly Matched:" ∧ ¬ strStarts line "=" then
        acc ++ [line]
      else acc)
    []
  let packageMatches :=
    if !exactMatch then
      nameMatches.foldl
        (fun acc line =>
          let line := trimSpaceStr line
          if line ≠ "" ∧ ¬ strStarts line "Name Matched:" ∧ ¬ strStarts line "=" then
            acc ++ [line]
          else acc)
        pm1
    else pm1
  let lines := packageMatches.foldl
    (fun acc line =>
      let line := trimSpaceStr line
      if line ≠ "" ∧ ¬ strStarts line "=" then acc ++ [line] else acc)
    []
  some (lines.map parsePackageInfo)

end dnf

namespace apt

/-- The loop body of `apt.ParseListUpgradableOutput`: skip `Listing...`
lines and empty lines, and read each remaining line positionally as
`name/category newVersion arch ... [upgradable from: version]`.  The Go
code indexes `parts[0]`, `Split(parts[0], "/")[1]`, `parts[1]`, `parts[2]`
and `parts[5]` without bounds checks; `none` models the panic when a line
has too few fields or no slash. -/
def upgradableStep (packages : List manager.PackageInfo) (line : String) :
    Option (List manager.PackageInfo) :=
  if strStarts line "Listing..." then some packages
  else if line.data.length > 0 then
    let parts := goFields line
    match parts.get? 0 with
    | none => none
    | some p0 =>
      let slashed := (splitCh '/' p0.data).map List.asString
      let name := slashed.getD 0 ""
      match slashed.get? 1 with
      | none => none
      | some category =>
        match parts.get? 1, parts.get? 2, parts.get? 5 with
        | some newVersion, some arch, some v5 =>
          some (packages ++
            [{ Name := name, Version := trimLastChStr ']' v5,
               NewVersion := newVersion, Category := category, Arch := arch,
               Status := manager.PackageStatusUpgradable, PackageManager := pm }])
        | _, _, _ => none
  else some packages

/-- The function `apt.ParseListUpgradableOutput` as the fold of `upgradableStep` over the
lines of the newline-trimmed output. -/
def ParseListUpgradableOutput (msg : String) : Option (List manager.PackageInfo) :=
  (splitNlStr (trimLastChStr '\n' msg)).foldlM upgradableStep []

/-- First character class `[\w\d-]` of the search-header regex of
`apt.ParseFindOutput`. -/
def findCls1 (c : Char) : Bool := wordChar c || c = '-'

/-- Second character class `[\w\d-,]` of the search-header regex. -/
def findCls2 (c : Char) : Bool := wordChar c || c = '-' || c = ','

/-- Does the block match `^[\w\d-]+/[\w\d-,]+`?  The class excludes `'/'`,
so the maximal first run followed by `'/'` and one second-class character is
the only way the anchored regex can match. -/
def findHeaderOk (block : List Char) : Bool :=
  if block.takeWhile findCls1 = [] then false
  else
    match block.dropWhile findCls1 with
    | '/' :: c :: _ => findCls2 c
    | _ => false

/-- The search-result-to-pending-mapping phase of `apt.ParseFindOutput`
(lines 138–170 of the source): strip the `Sorting...`/`Full Text Search...`
banner, trim one trailing newline, split into blank-line-delimited blocks,
and for each block whose head matches the header regex store a record in
the name-keyed dictionary.  The Go code indexes `parts[1]` and `parts[2]`
without bounds checks; `none` models the panic on a matching block with
fewer than three fields. -/
def findDictStep (dict : PkgMap) (block : String) : Option PkgMap :=
  if findHeaderOk block.data then
    let parts := goFields block
    match parts.get? 0 with
    | none => none
    | some p0 =>
      if p0 = "" then some dict
      else
        match parts.get? 1, parts.get? 2 with
        | some p1, some p2 =>
          let slashed := (splitCh '/' p0.data).map List.asString
          some (mapInsert (slashed.getD 0 "")
            { Name := slashed.getD 0 "", Version := p1, NewVersion := p1,
              Category := slashed.getD 1 "", Arch := p2,
              PackageManager := pm } dict)
        | _, _ => none
  else some dict

/-- The dictionary-building fold of `apt.ParseFindOutput` over the
blank-line-delimited blocks. -/
def buildFindDict (msg : String) : Option PkgMap :=
  let msg := dropPreStr msg "Sorting...\nFull Text Search...\n"
  let msg := trimLastChStr '\n' msg
  (splitSubStr msg "\n\n").foldlM findDictStep []

/-- The line-classification part of the loop body of
`apt.ParseDpkgQueryOutput` (lines 327–348 of the source): skip empty lines,
lines with fewer than two fields, and lines whose computed name is empty;
otherwise return the name, computed as `parts[0]`, replaced by the last
field when it starts with `dpkg-query:`, and stripped at the first `':'`
(`strings.Split(name, ":")[0]` applied when the name contains a colon). -/
def dpkgLineName (line : List Char) : Option String :=
  if line.length > 0 then
    let parts := (fieldsCl line).map List.asString
    if parts.length < 2 then none
    else
      let name := parts.getD 0 ""
      let name := if strStarts name "dpkg-query:" then parts.getLastD "" else name
      let name :=
        if name.data.contains ':' then (name.data.takeWhile (fun c => decide (c ≠ ':'))).asString
        else name
      if name = "" then none else some name
  else none

/-- The authoritative version computed by the loop body of
`apt.ParseDpkgQueryOutput`: the last field of the line, blanked unless it
starts with a digit (`regexp.MustCompile("^\\d")`). -/
def dpkgLineVersion (line : List Char) : String :=
  let parts := (fieldsCl line).map List.asString
  let version := parts.getLastD ""
  if headIsDigit version then version else ""

/-- The field `parts[len(parts)-2]`, the status word the `switch` of
`apt.ParseDpkgQueryOutput` inspects. -/
def dpkgPenult (line : List Char) : String :=
  let parts := (fieldsCl line).map List.asString
  parts.getD (parts.length - 2) ""

/-- One iteration of the line loop of `apt.ParseDpkgQueryOutput`
(lines 327–389 of the source), with the Go map mutation made explicit: the
state is the pending mapping together with the accumulated record list.  The
source's `packages[name] = pkg; delete(packages, name)` in the not-found
branch inserts and immediately deletes, so both branches erase `name`. -/
def processDpkgLine (st : PkgMap × List manager.PackageInfo) (line : List Char) :
    PkgMap × List manager.PackageInfo :=
  match dpkgLineName line with
  | none => st
  | some name =>
    let packages := st.1
    let acc := st.2
    let version := dpkgLineVersion line
    let lk := mapLookup name packages
    let pkg := lk.getD {}
    let packages := if lk.isSome then packages else packages ++ [(name, pkg)]
    let packages := mapErase name packages
    let pkg :=
      if ("dpkg-query: ".data).isPrefixOf line then
        { pkg with Status := manager.PackageStatusUnknown, Version := "" }
      else if dpkgPenult line = "installed" then
        { pkg with Status := manager.PackageStatusInstalled,
                   Version := if version ≠ "" then version else pkg.Version }
      else if dpkgPenult line = "config-files" then
        { pkg with Status := manager.PackageStatusConfigFiles,
                   Version := if version ≠ "" then version else pkg.Version }
      else
        { pkg with Status := manager.PackageStatusAvailable,
                   Version := if version ≠ "" then version else pkg.Version }
    (packages, acc ++ [pkg])

/-- The function `apt.ParseDpkgQueryOutput`: trim one trailing newline, split into lines,
and run the line loop.  Returns the record list together with the final
state of the (destructively consumed) pending mapping; the Go error result
is always `nil` and is omitted. -/
def ParseDpkgQueryOutput (output : String) (packages : PkgMap) :
    List manager.PackageInfo × PkgMap :=
  let lines := splitCh '\n' (trimLastCh '\n' output.data)
  let st := lines.foldl processDpkgLine (packages, [])
  (st.2, st.1)

/-- The names of the lines of an output blob that the line loop of
`ParseDpkgQueryOutput` acts on. -/
def dpkgNames (output : String) : List String :=
  (splitCh '\n' (trimLastCh '\n' output.data)).filterMap dpkgLineName

/-- The post-query part of `apt.getPackageStatus` (lines 302–314 of the
source): parse the dpkg-query output against the pending mapping, then
append every package still pending with its status set to unknown. -/
def reconcileDpkg (out : String) (packages : PkgMap) : List manager.PackageInfo :=
  let r := ParseDpkgQueryOutput out packages
  r.1 ++ r.2.map (fun p => { p.2 with Status := manager.PackageStatusUnknown })

/-- Outcome of `cmd.CombinedOutput()` as `apt.getPackageStatus` classifies
it: success, an `*exec.ExitError` with an exit code, or any other error
(I/O failure, binary missing — a non-exit-status error). -/
inductive ExecErr where
  | ok : ExecErr
  | exit : Int → ExecErr
  | other : ExecErr
deriving Repr, DecidableEq

/-- The error test of `apt.getPackageStatus` (lines 294–300 of the source):
the command outcome is treated as a hard failure exactly when the error is
an `*exec.ExitError` whose code is not 1 and whose combined output does not
contain `"no packages found matching"`.  Non-exit-status errors fall
through the type assertion and are never hard failures. -/
def hardFailure (out : String) : ExecErr → Bool
  | .exit c => decide (c ≠ 1) && !(strContains out "no packages found matching")
  | _ => false

/-- The function `apt.getPackageStatus` (lines 275–315 of the source) with the process
invocation replaced by its captured outcome `(out, e)`: return the empty
list for an empty pending mapping; abort (`none`, the Go `return nil, err`)
on a hard failure; otherwise reconcile. -/
def getPackageStatus (packages : PkgMap) (out : String) (e : ExecErr) :
    Option (List manager.PackageInfo) :=
  if packages.length = 0 then some []
  else if hardFailure out e then none
  else some (reconcileDpkg out packages)

end apt

/-- The pending record of the C2 scenario: search-derived version `1.0` and
category `utils` for name `pkgY`. -/
def pkgY0 : manager.PackageInfo :=
  { Name := "pkgY", Version := "1.0", Category := "utils", PackageManager := "apt" }

/-! General helper lemmas about the embedded string primitives. -/

theorem asString_data (s : String) : s.data.asString = s := rfl

theorem tw_app {p : Char → Bool} :
    ∀ (xs ys : List Char), (∀ c ∈ xs, p c = true) →
      (xs ++ ys).takeWhile p = xs ++ ys.takeWhile p
  | [], _, _ => by simp
  | c :: t, ys, h => by
    have hc : p c = true := h c (List.mem_cons_self c t)
    simp only [List.cons_append, List.takeWhile_cons, hc, if_true]
    rw [tw_app t ys (fun d hd => h d (List.mem_cons_of_mem c hd))]

theorem dw_app {p : Char → Bool} :
    ∀ (xs ys : List Char), (∀ c ∈ xs, p c = true) →
      (xs ++ ys).dropWhile p = ys.dropWhile p
  | [], _, _ => by simp
  | c :: t, ys, h => by
    have hc : p c = true := h c (List.mem_cons_self c t)
    simp only [List.cons_append, List.dropWhile_cons, hc, if_true]
    exact dw_app t ys (fun d hd => h d (List.mem_cons_of_mem c hd))

theorem tw_stop {p : Char → Bool} {c : Char} (l : List Char) (h : p c = false) :
    (c :: l).takeWhile p = [] := by
  simp [List.takeWhile_cons, h]

theorem dw_stop {p : Char → Bool} {c : Char} (l : List Char) (h : p c = false) :
    (c :: l).dropWhile p = c :: l := by
  simp [List.dropWhile_cons, h]

theorem splitAny_cons_ex {p : Char → Bool} :
    ∀ l : List Char, ∃ h t, splitAnyCl p l = h :: t
  | [] => ⟨[], [], rfl⟩
  | c :: cs => by
    obtain ⟨h, t, heq⟩ := splitAny_cons_ex (p := p) cs
    by_cases hp : p c = true
    · exact ⟨[], splitAnyCl p cs, by simp [splitAnyCl, hp]⟩
    · refine ⟨c :: h, t, ?_⟩
      simp only [splitAnyCl, Bool.not_eq_true] at hp ⊢
      rw [hp, heq]
      simp

theorem splitAny_app {p : Char → Bool} :
    ∀ (xs l : List Char), (∀ c ∈ xs, p c = false) →
      splitAnyCl p (xs ++ l) = (xs ++ (splitAnyCl p l).headI) :: (splitAnyCl p l).tail
  | [], l, _ => by
    obtain ⟨h, t, heq⟩ := splitAny_cons_ex (p := p) l
    simp [heq]
  | c :: t, l, h => by
    have hc : p c = false := h c (List.mem_cons_self c t)
    have ih := splitAny_app t l (fun d hd => h d (List.mem_cons_of_mem c hd))
    simp only [List.cons_append, splitAnyCl, hc, Bool.false_eq_true, if_false]
    rw [show t.append l = t ++ l from rfl, ih]

theorem splitAny_no {p : Char → Bool} (l : List Char) (h : ∀ c ∈ l, p c = false) :
    splitAnyCl p l = [l] := by
  have h2 := splitAny_app l [] h
  rw [show splitAnyCl p ([] : List Char) = [[]] from rfl] at h2
  simpa using h2

theorem splitAny_sep {p : Char → Bool} {c : Char} (l : List Char) (h : p c = true) :
    splitAnyCl p (c :: l) = [] :: splitAnyCl p l := by
  simp [splitAnyCl, h]

theorem fields_token (xs rest : List Char) (hne : xs ≠ [])
    (hcl : ∀ c ∈ xs, goSpace c = false) :
    fieldsCl (xs ++ ' ' :: rest) = xs :: fieldsCl rest := by
  unfold fieldsCl
  rw [splitAny_app xs (' ' :: rest) hcl,
      splitAny_sep rest (show goSpace ' ' = true by decide)]
  simp [hne]

theorem fields_one (xs : List Char) (hne : xs ≠ [])
    (hcl : ∀ c ∈ xs, goSpace c = false) : fieldsCl xs = [xs] := by
  unfold fieldsCl
  rw [splitAny_no xs hcl]
  simp [hne]

theorem ipo_self_app : ∀ (l r : List Char), l.isPrefixOf (l ++ r) = true
  | [], _ => by simp [List.isPrefixOf]
  | c :: t, r => by
    simp only [List.cons_append, List.isPrefixOf_cons₂_self]
    exact ipo_self_app t r

theorem dropLit_self (lit r : List Char) : dropLit lit (lit ++ r) = some r := by
  simp [dropLit, ipo_self_app, List.drop_left]

theorem splitNl_single (s : String) (h : ∀ c ∈ s.data, c ≠ '\n') :
    splitNlStr s = [s] := by
  unfold splitNlStr splitCh
  rw [splitAny_no s.data (fun c hc => by simp [h c hc])]
  simp [asString_data]

theorem getLast?_app_some {l₂ : List Char} {c : Char} :
    ∀ l₁ : List Char, l₂.getLast? = some c → (l₁ ++ l₂).getLast? = some c := by
  intro l₁ h
  have hne : l₂ ≠ [] := by rintro rfl; simp at h
  induction l₁ with
  | nil => simpa
  | cons a t ih =>
    have hne2 : t ++ l₂ ≠ [] := by simp [hne]
    rw [List.cons_append]
    cases heq : t ++ l₂ with
    | nil => exact absurd heq hne2
    | cons x xs => rw [List.getLast?_cons_cons, ← heq, ih]

theorem trimLastStr_keep (c : Char) (s : String) {d : Char}
    (h : s.data.getLast? = some d) (hne : d ≠ c) : trimLastChStr c s = s := by
  unfold trimLastChStr trimLastCh
  rw [h]
  simp [hne, asString_data]

/-- Records reachable by a fold that only ever appends records satisfying
`P` all satisfy `P`. -/
theorem foldl_mem_inv {β : Type} (f : List manager.PackageInfo → β → List manager.PackageInfo)
    (P : manager.PackageInfo → Prop)
    (hf : ∀ acc b p, p ∈ f acc b → p ∈ acc ∨ P p) :
    ∀ (l : List β) (acc : List manager.PackageInfo), (∀ p ∈ acc, P p) →
      ∀ p ∈ l.foldl f acc, P p := by
  intro l
  induction l with
  | nil => intro acc hacc; simpa using hacc
  | cons b t ih =>
    intro acc hacc p hp
    exact ih (f acc b) (fun q hq => (hf acc b q hq).elim (hacc q) id) p (by simpa using hp)

/-- An invariant preserved by every successful step of an `Option`-valued
fold holds of a successful result. -/
theorem foldlM_opt_inv {α β : Type} (f : β → α → Option β) (P : β → Prop)
    (hf : ∀ b a b', f b a = some b' → P b → P b') :
    ∀ (l : List α) (b r : β), P b → List.foldlM f b l = some r → P r := by
  intro l
  induction l with
  | nil =>
    intro b r hb h
    simp only [List.foldlM_nil, Option.pure_def, Option.some.injEq] at h
    rwa [← h]
  | cons a t ih =>
    intro b r hb h
    rw [List.foldlM_cons] at h
    cases hfa : f b a with
    | none => rw [hfa] at h; simp at h
    | some b' =>
      rw [hfa] at h
      simp only [Option.bind_eq_bind, Option.some_bind] at h
      exact ih b' r (hf b a b' hfa hb) h

/-! Claim theorems. -/

set_option maxRecDepth 40000

/-- C3 (refuting the claim as stated): the Format Parsers are not all total.
The dnf Search/Find parser indexes `sections[2]` and `sections[4]` of the
banner split unconditionally, so it panics (modelled as `none`) on the empty
string — an input with zero matching lines — in both the exact-match and the
broad-match mode; the apt List-Upgradable parser likewise panics on a
non-empty noise line without a `/` or with fewer than six fields. -/
theorem claim_C3 :
    dnf.ParseFindOutput "" true = none ∧
    dnf.ParseFindOutput "" false = none ∧
    apt.ParseListUpgradableOutput "Listing...\nnoise\n" = none := by
  refine ⟨by decide, by decide, by decide⟩

/-- C4 counterexample: a non-exit-status transport failure (binary missing,
I/O failure — `ExecErr.other`) does not abort the reconciliation; the
reconciler proceeds on the captured (empty) output and returns the pending
package marked unknown, contradicting the claim that every outcome other
than the tolerated one surfaces a hard error with no result list. -/
theorem claim_C4_counterexample :
    apt.getPackageStatus
      [("pkgA", { Name := "pkgA", Version := "0.9", PackageManager := "apt" })] ""
      apt.ExecErr.other =
      some [{ Name := "pkgA", Version := "0.9", Status := "unknown",
              PackageManager := "apt" }] := by
  decide

/-- C4 as amended: the reconciliation aborts with a hard error exactly when
the pending mapping is non-empty and the query failed with an exit-status
error whose code is not 1 and whose combined output does not contain
`"no packages found matching"`; every other outcome — including non-exit
errors such as a missing binary — is tolerated and produces a result list. -/
theorem claim_C4 :
    ∀ (packages : PkgMap) (out : String) (e : apt.ExecErr),
      apt.getPackageStatus packages out e = none ↔
        packages.length ≠ 0 ∧
          ∃ c, e = apt.ExecErr.exit c ∧ c ≠ 1 ∧
            strContains out "no packages found matching" = false := by
  intro packages out e
  unfold apt.getPackageStatus
  by_cases hp : packages.length = 0
  · simp [hp]
  · rw [if_neg hp]
    cases e with
    | ok =>
      simp only [apt.hardFailure, Bool.false_eq_true, if_false]
      constructor
      · intro h; exact absurd h (by simp)
      · rintro ⟨-, c', heq, -⟩; cases heq
    | other =>
      simp only [apt.hardFailure, Bool.false_eq_true, if_false]
      constructor
      · intro h; exact absurd h (by simp)
      · rintro ⟨-, c', heq, -⟩; cases heq
    | exit c =>
      cases hb : apt.hardFailure out (apt.ExecErr.exit c) with
      | true =>
        rw [if_pos rfl]
        simp only [apt.hardFailure, Bool.and_eq_true, decide_eq_true_eq,
          Bool.not_eq_true'] at hb
        constructor
        · intro _; exact ⟨hp, c, rfl, hb.1, hb.2⟩
        · intro _; rfl
      | false =>
        rw [if_neg (by simp)]
        simp only [apt.hardFailure] at hb
        constructor
        · intro h; exact absurd h (by simp)
        · rintro ⟨-, c', heq, h1, h2⟩
          cases heq
          rw [h2] at hb
          simp [h1] at hb

/-- C5 counterexample: a record produced by the dnf Install-output parser
from a well-formed fixed-column line does not carry `status = installed`;
the composite literal in the source sets no status, leaving the zero
value. -/
theorem claim_C5_counterexample :
    dnf.ParseInstallOutput "bash.x86_64    4.4.20-5.el8     @baseos" =
      [{ Name := "bash", Version := "4.4.20-5.el8", Arch := "x86_64",
         Category := "baseos", PackageManager := "dnf" }] ∧
    ({ Name := "bash", Version := "4.4.20-5.el8", Arch := "x86_64",
       Category := "baseos", PackageManager := "dnf" } : manager.PackageInfo).Status ≠
      manager.PackageStatusInstalled := by
  refine ⟨by decide, by decide⟩

/-- C5 as amended: every record produced by the apt Install-output parser
carries `status = installed`; every record produced by the dnf variant
carries the zero status (the empty string), not `installed`. -/
theorem claim_C5 :
    ∀ msg : String,
      (∀ p ∈ apt.ParseInstallOutput msg, p.Status = manager.PackageStatusInstalled) ∧
      (∀ p ∈ dnf.ParseInstallOutput msg, p.Status = "") := by
  intro msg
  constructor
  · intro p hp
    refine foldl_mem_inv apt.installStep
      (fun q => q.Status = manager.PackageStatusInstalled) ?_ _ [] (by simp) p hp
    intro acc b q hq
    unfold apt.installStep at hq
    split at hq
    · split at hq
      · exact Or.inl hq
      · rcases List.mem_append.mp hq with h | h
        · exact Or.inl h
        · right
          show q.Status = manager.PackageStatusInstalled
          rw [List.mem_singleton.mp h]
    · exact Or.inl hq
  · intro p hp
    refine foldl_mem_inv dnf.installStep (fun q => q.Status = "") ?_ _ [] (by simp) p hp
    intro acc b q hq
    unfold dnf.installStep at hq
    split at hq
    · rcases List.mem_append.mp hq with h | h
      · exact Or.inl h
      · right
        show q.Status = ""
        rw [List.mem_singleton.mp h]
    · exact Or.inl hq

/-- C5 witness: the amended claim applied to one concrete apt line and one
concrete dnf line. -/
theorem claim_C5_witness :
    ({ Name := "openssl", Arch := "", Version := "3.0", NewVersion := "3.0",
       Status := manager.PackageStatusInstalled,
       PackageManager := apt.pm } : manager.PackageInfo).Status =
      manager.PackageStatusInstalled ∧
    ({ Name := "bash", Version := "1.0-1", Arch := "x", Category := "r",
       PackageManager := dnf.pm } : manager.PackageInfo).Status = "" :=
  ⟨(claim_C5 "Setting up openssl (3.0) ...").1 _ (by decide),
   (claim_C5 "bash.x 1.0-1 @r").2 _ (by decide)⟩

/-- C9 (refuting the claim as stated): the dnf Search/Find parser emits a
record with an empty name.  For a line in the exact-match section that does
not match the name-version-architecture pattern, `parsePackageInfo` returns
the zero `PackageInfo` and the parser appends it unconditionally. -/
theorem claim_C9 :
    dnf.ParseFindOutput
      (dnf.dnfSepLine ++ "h" ++ dnf.dnfSepLine ++ "\nfoo : bar\n" ++
       dnf.dnfSepLine ++ "h" ++ dnf.dnfSepLine) true =
      some [{}] ∧
    ({} : manager.PackageInfo).Name = "" := by
  refine ⟨by decide, by decide⟩

theorem mapLookup_none_iff (k : String) :
    ∀ m : PkgMap, mapLookup k m = none ↔ k ∉ m.map Prod.fst
  | [] => by simp [mapLookup]
  | p :: m => by
    by_cases h : p.1 = k
    · simp [mapLookup, h]
    · simp only [mapLookup, h, if_false, List.map_cons, List.mem_cons]
      rw [mapLookup_none_iff k m]
      constructor
      · intro hm hor
        rcases hor with heq | hin
        · exact h heq.symm
        · exact hm hin
      · intro hall hin
        exact hall (Or.inr hin)

theorem mapInsert_keys_nodup (k : String) (v : manager.PackageInfo) (m : PkgMap)
    (h : (m.map Prod.fst).Nodup) : ((mapInsert k v m).map Prod.fst).Nodup := by
  unfold mapInsert
  split
  · have hkeys : (m.map (fun p => if p.1 = k then (k, v) else p)).map Prod.fst =
        m.map Prod.fst := by
      rw [List.map_map]
      apply List.map_congr_left
      intro p hp
      by_cases hpk : p.1 = k
      · simp [Function.comp, hpk]
      · simp [Function.comp, hpk]
    rw [hkeys]
    exact h
  · rename_i hlk
    have hk : k ∉ m.map Prod.fst := by
      rw [← mapLookup_none_iff k m]
      cases hm : mapLookup k m with
      | none => rfl
      | some w => rw [hm] at hlk; simp at hlk
    rw [List.map_append]
    simp only [List.map_cons, List.map_nil]
    rw [List.nodup_append]
    refine ⟨h, List.nodup_singleton k, ?_⟩
    intro a ha hb
    rw [List.mem_singleton.mp hb] at ha
    exact hk ha

/-- C6 counterexample: the dnf Search/Find parser does not deduplicate by
name.  Two banner-section lines for the same package name (different listing
of the same name) produce two records with the same name. -/
theorem claim_C6_counterexample :
    dnf.ParseFindOutput
      (dnf.dnfSepLine ++ "h" ++ dnf.dnfSepLine ++
       "\naa-1.0.0-1.x : d\naa-1.0.0-1.x : d\n" ++
       dnf.dnfSepLine ++ "h" ++ dnf.dnfSepLine) true =
      some [{ Name := "aa", Version := "1.0.0-1", NewVersion := "1.0.0-1", Arch := "x",
              PackageManager := "dnf" },
            { Name := "aa", Version := "1.0.0-1", NewVersion := "1.0.0-1", Arch := "x",
              PackageManager := "dnf" }] := by
  decide

/-- C6 as amended: the apt Search/Find parser deduplicates by keying its
pending mapping on the package name (so the mapping built from any raw
output has pairwise-distinct names, the last block for a name winning),
whereas the dnf Search/Find parser appends one record per matched line and
repeats a name whenever the raw output repeats it. -/
theorem claim_C6 :
    ∀ (msg : String) (d : PkgMap),
      apt.buildFindDict msg = some d → (d.map Prod.fst).Nodup := by
  intro msg d h
  unfold apt.buildFindDict at h
  refine foldlM_opt_inv apt.findDictStep (fun m => (m.map Prod.fst).Nodup) ?_ _ [] d
    (by simp) h
  intro b a b' hstep hb
  unfold apt.findDictStep at hstep
  simp only [] at hstep
  split at hstep
  · split at hstep
    · exact absurd hstep (by simp)
    · split at hstep
      · rw [Option.some.injEq] at hstep
        rw [← hstep]
        exact hb
      · split at hstep
        · rw [Option.some.injEq] at hstep
          rw [← hstep]
          exact mapInsert_keys_nodup _ _ _ hb
        · exact absurd hstep (by simp)
  · rw [Option.some.injEq] at hstep
    rw [← hstep]
    exact hb

/-- C6 witness: the amended claim applied to a concrete search output. -/
theorem claim_C6_witness :
    (([("zutty", { Name := "zutty", Version := "0.11.2", NewVersion := "0.11.2",
                   Category := "jammy", Arch := "amd64",
                   PackageManager := "apt" })] : PkgMap).map Prod.fst).Nodup :=
  claim_C6 "zutty/jammy 0.11.2 amd64\n desc" _ (by decide)

/-- C2 counterexample: for a pending entry reported by a
`dpkg-query: no packages found matching pkgY` line, the final record has
`status = unknown` and its category preserved, but its search-derived
version is NOT preserved — the `dpkg-query:` branch of the source sets
`pkg.Version = ""`, erasing `1.0`. -/
theorem claim_C2_counterexample :
    apt.reconcileDpkg "dpkg-query: no packages found matching pkgY\n" [("pkgY", pkgY0)] =
      [{ Name := "pkgY", Version := "", Category := "utils", Status := "unknown",
         PackageManager := "apt" }] ∧
    ({ Name := "pkgY", Version := "", Category := "utils", Status := "unknown",
       PackageManager := "apt" } : manager.PackageInfo).Version ≠ pkgY0.Version := by
  refine ⟨by decide, by decide⟩

/-- C2 as amended: (1) a pending entry matched by a `dpkg-query: ` line gets
`status = unknown` with its version cleared to the empty string and every
other search-derived field (in particular the category) preserved; (2) a
pending entry never matched by any line of the authoritative output is
emitted with `status = unknown` and all other fields untouched; (3) for a
matched non-`dpkg-query: ` line whose authoritative version is empty, the
empty version does not overwrite the search-derived version. -/
theorem claim_C2 :
    (∀ (line : List Char) (pkgs : PkgMap) (acc : List manager.PackageInfo)
        (k : String) (v : manager.PackageInfo),
        apt.dpkgLineName line = some k → mapLookup k pkgs = some v →
        ("dpkg-query: ".data).isPrefixOf line = true →
        (apt.processDpkgLine (pkgs, acc) line).2 =
          acc ++ [{ v with Status := manager.PackageStatusUnknown, Version := "" }]) ∧
    (∀ (out : String) (pkgs : PkgMap) (kv : String × manager.PackageInfo),
        kv ∈ (apt.ParseDpkgQueryOutput out pkgs).2 →
        ({ kv.2 with Status := manager.PackageStatusUnknown } : manager.PackageInfo) ∈
          apt.reconcileDpkg out pkgs) ∧
    (∀ (line : List Char) (pkgs : PkgMap) (acc : List manager.PackageInfo)
        (k : String) (v : manager.PackageInfo),
        apt.dpkgLineName line = some k → mapLookup k pkgs = some v →
        ("dpkg-query: ".data).isPrefixOf line = false →
        apt.dpkgLineVersion line = "" →
        ∃ st, (apt.processDpkgLine (pkgs, acc) line).2 = acc ++ [{ v with Status := st }]) := by
  refine ⟨?_, ?_, ?_⟩
  · intro line pkgs acc k v h1 h2 h3
    simp only [apt.processDpkgLine, h1, h2, Option.getD_some, Option.isSome_some,
      if_true, h3]
  · intro out pkgs kv hkv
    exact List.mem_append_right _
      (List.mem_map_of_mem (fun p => { p.2 with Status := manager.PackageStatusUnknown }) hkv)
  · intro line pkgs acc k v h1 h2 h3 h4
    simp only [apt.processDpkgLine, h1, h2, Option.getD_some, Option.isSome_some,
      if_true, h3, h4, Bool.false_eq_true, if_false, ne_eq, not_true_eq_false]
    by_cases hi : apt.dpkgPenult line = "installed"
    · exact ⟨manager.PackageStatusInstalled, by simp [hi]⟩
    · by_cases hcf : apt.dpkgPenult line = "config-files"
      · exact ⟨manager.PackageStatusConfigFiles, by simp [hi, hcf]⟩
      · exact ⟨manager.PackageStatusAvailable, by simp [hi, hcf]⟩

/-- C2 witness: the three parts of the amended claim applied to concrete
inputs — the not-found line for `pkgY`, the empty authoritative output, and
a `config-files` line with a non-numeric (hence empty) version. -/
theorem claim_C2_witness :
    ((apt.processDpkgLine ([("pkgY", pkgY0)], [])
        ("dpkg-query: no packages found matching pkgY".data)).2 =
      [] ++ [{ pkgY0 with Status := manager.PackageStatusUnknown, Version := "" }]) ∧
    (({ pkgY0 with Status := manager.PackageStatusUnknown } : manager.PackageInfo) ∈
      apt.reconcileDpkg "" [("pkgY", pkgY0)]) ∧
    (∃ st, (apt.processDpkgLine ([("pkgY", pkgY0)], [])
        ("pkgY deinstall ok config-files abc".data)).2 =
      [] ++ [{ pkgY0 with Status := st }]) :=
  ⟨claim_C2.1 _ _ _ "pkgY" pkgY0 (by decide) (by decide) (by decide),
   claim_C2.2.1 "" _ ("pkgY", pkgY0) (by decide),
   claim_C2.2.2 _ _ _ "pkgY" pkgY0 (by decide) (by decide) (by decide) (by decide)⟩

theorem mapErase_keys (k : String) (m : PkgMap) :
    (mapErase k m).map Prod.fst = (m.map Prod.fst).filter (fun x => decide (x ≠ k)) := by
  induction m with
  | nil => rfl
  | cons p t ih =>
    unfold mapErase at ih ⊢
    simp only [ne_eq, decide_not] at ih ⊢
    by_cases h : p.1 = k
    · simp [List.filter_cons, h, ih]
    · simp [List.filter_cons, h, ih]

theorem processLine_map (st : PkgMap × List manager.PackageInfo) (line : List Char) :
    (apt.processDpkgLine st line).1 =
      match apt.dpkgLineName line with
      | some n => mapErase n st.1
      | none => st.1 := by
  cases h : apt.dpkgLineName line with
  | none => simp [apt.processDpkgLine, h]
  | some n =>
    simp only [apt.processDpkgLine, h]
    cases hlk : mapLookup n st.1 with
    | some v => simp [hlk]
    | none =>
      simp only [hlk, Option.isSome_none, Bool.false_eq_true, if_false]
      unfold mapErase
      rw [List.filter_append]
      simp

theorem dpkg_fold_map :
    ∀ (lines : List (List Char)) (m : PkgMap) (acc : List manager.PackageInfo),
      (lines.foldl apt.processDpkgLine (m, acc)).1 =
        m.filter (fun p => !((lines.filterMap apt.dpkgLineName).contains p.1)) := by
  intro lines
  induction lines with
  | nil =>
    intro m acc
    simp [List.filter_eq_self]
  | cons l ls ih =>
    intro m acc
    rw [List.foldl_cons]
    have heta : apt.processDpkgLine (m, acc) l =
        ((apt.processDpkgLine (m, acc) l).1, (apt.processDpkgLine (m, acc) l).2) := rfl
    cases h : apt.dpkgLineName l with
    | none =>
      have hm := processLine_map (m, acc) l
      rw [h] at hm
      rw [heta, hm, ih]
      simp [List.filterMap_cons, h]
    | some n =>
      have hm := processLine_map (m, acc) l
      rw [h] at hm
      rw [heta, hm, ih]
      rw [List.filterMap_cons, h]
      unfold mapErase
      rw [List.filter_filter]
      apply List.filter_congr
      intro p hp
      rw [List.contains_cons]
      by_cases hpn : p.1 = n
      · simp [hpn]
      · simp [hpn, Ne.symm hpn]

/-- C10: `ParseDpkgQueryOutput` consumes its pending-mapping argument
destructively and precisely — on return the mapping holds exactly the
original entries whose key is not among the names parsed from the output
lines (empty lines, lines with fewer than two fields and lines with an
empty computed name parse no name). -/
theorem claim_C10 :
    ∀ (output : String) (packages : PkgMap),
      (apt.ParseDpkgQueryOutput output packages).2 =
        packages.filter (fun p => !((apt.dpkgNames output).contains p.1)) := by
  intro output packages
  unfold apt.ParseDpkgQueryOutput apt.dpkgNames
  exact dpkg_fold_map _ packages []

theorem mapLookup_mem (k : String) :
    ∀ m : PkgMap, k ∈ m.map Prod.fst → ∃ v, mapLookup k m = some v ∧ (k, v) ∈ m
  | [], h => by simp at h
  | p :: t, h => by
    by_cases hp : p.1 = k
    · refine ⟨p.2, by simp [mapLookup, hp], List.mem_cons.mpr (Or.inl ?_)⟩
      rw [← hp]
    · have h' : k ∈ p.1 :: t.map Prod.fst := by
        rw [List.map_cons] at h
        exact h
      have hk : k ∈ t.map Prod.fst := by
        rcases List.mem_cons.mp h' with heq | hin
        · exact absurd heq.symm hp
        · exact hin
      obtain ⟨v, hv1, hv2⟩ := mapLookup_mem k t hk
      exact ⟨v, by simp [mapLookup, hp, hv1], List.mem_cons.mpr (Or.inr hv2)⟩

theorem processLine_found (line : List Char) (m : PkgMap)
    (acc : List manager.PackageInfo) (n : String) (v : manager.PackageInfo)
    (h1 : apt.dpkgLineName line = some n) (h2 : mapLookup n m = some v) :
    ∃ r : manager.PackageInfo,
      apt.processDpkgLine (m, acc) line = (mapErase n m, acc ++ [r]) ∧ r.Name = v.Name := by
  simp only [apt.processDpkgLine, h1, h2, Option.getD_some, Option.isSome_some, if_true]
  by_cases hq : ("dpkg-query: ".data).isPrefixOf line = true
  · rw [if_pos hq]
    exact ⟨_, rfl, rfl⟩
  · rw [if_neg hq]
    by_cases hi : apt.dpkgPenult line = "installed"
    · rw [if_pos hi]
      exact ⟨_, rfl, rfl⟩
    · rw [if_neg hi]
      by_cases hcf : apt.dpkgPenult line = "config-files"
      · rw [if_pos hcf]
        exact ⟨_, rfl, rfl⟩
      · rw [if_neg hcf]
        exact ⟨_, rfl, rfl⟩

theorem filter_ne_eq_erase (a : String) :
    ∀ l : List String, l.Nodup → l.filter (fun x => decide (x ≠ a)) = l.erase a
  | [], _ => rfl
  | b :: t, h => by
    rw [List.filter_cons]
    by_cases hb : b = a
    · subst hb
      simp only [ne_eq, not_true_eq_false, decide_False, Bool.false_eq_true, if_false,
        List.erase_cons_head]
      apply List.filter_eq_self.mpr
      intro x hx
      have : x ≠ b := by
        rintro rfl
        exact (List.nodup_cons.mp h).1 hx
      simpa using this
    · rw [if_pos (by simpa using hb)]
      rw [List.erase_cons_tail]
      · rw [filter_ne_eq_erase a t (List.nodup_cons.mp h).2]
      · simpa using hb

theorem c1_fold :
    ∀ (lines : List (List Char)) (m : PkgMap) (acc : List manager.PackageInfo),
      (m.map Prod.fst).Nodup →
      (∀ kv ∈ m, kv.2.Name = kv.1) →
      (lines.filterMap apt.dpkgLineName).Nodup →
      (∀ n ∈ lines.filterMap apt.dpkgLineName, n ∈ m.map Prod.fst) →
      (((lines.foldl apt.processDpkgLine (m, acc)).2.map manager.PackageInfo.Name) ++
          ((lines.foldl apt.processDpkgLine (m, acc)).1.map Prod.fst)).Perm
        ((acc.map manager.PackageInfo.Name) ++ (m.map Prod.fst)) := by
  intro lines
  induction lines with
  | nil =>
    intro m acc _ _ _ _
    simp [List.Perm.refl]
  | cons l ls ih =>
    intro m acc h1 h2 h3 h4
    rw [List.foldl_cons]
    cases hl : apt.dpkgLineName l with
    | none =>
      have hst : apt.processDpkgLine (m, acc) l = (m, acc) := by
        simp [apt.processDpkgLine, hl]
      rw [hst]
      rw [List.filterMap_cons, hl] at h3 h4
      exact ih m acc h1 h2 h3 h4
    | some n =>
      rw [List.filterMap_cons, hl] at h3 h4
      have hn : n ∈ m.map Prod.fst := h4 n (List.mem_cons_self n _)
      obtain ⟨v, hv1, hv2⟩ := mapLookup_mem n m hn
      have hname : v.Name = n := h2 (n, v) hv2
      obtain ⟨r, hst, hrname⟩ := processLine_found l m acc n v hl hv1
      rw [hst]
      have hnodup := List.nodup_cons.mp h3
      have h1' : ((mapErase n m).map Prod.fst).Nodup := by
        rw [mapErase_keys]
        exact h1.filter _
      have h2' : ∀ kv ∈ mapErase n m, kv.2.Name = kv.1 :=
        fun kv hkv => h2 kv (List.mem_of_mem_filter hkv)
      have h4' : ∀ x ∈ ls.filterMap apt.dpkgLineName, x ∈ (mapErase n m).map Prod.fst := by
        intro x hx
        rw [mapErase_keys, List.mem_filter]
        refine ⟨h4 x (List.mem_cons_of_mem n hx), ?_⟩
        have : x ≠ n := by
          rintro rfl
          exact hnodup.1 hx
        simpa using this
      have hperm := ih (mapErase n m) (acc ++ [r]) h1' h2' hnodup.2 h4'
      refine hperm.trans ?_
      rw [List.map_append, mapErase_keys, List.append_assoc]
      apply List.Perm.append_left
      rw [filter_ne_eq_erase n _ h1]
      have hr : [r].map manager.PackageInfo.Name = [n] := by
        simp [hrname, hname]
      rw [hr]
      exact (List.perm_cons_erase hn).symm

/-- C1 counterexample: a pending mapping of one distinct name reconciled
against an output that also mentions a name outside the mapping yields two
records, not one — the loop appends a record for every parsed line, even
for `pkgB` which is not pending (that record moreover has an empty name). -/
theorem claim_C1_counterexample :
    (apt.reconcileDpkg "pkgA install ok installed 1.0\npkgB install ok installed 1.0\n"
        [("pkgA", { Name := "pkgA", Version := "0.9", Category := "web",
                    PackageManager := "apt" })]).length = 2 ∧
    ([("pkgA", ({ Name := "pkgA", Version := "0.9", Category := "web",
                  PackageManager := "apt" } : manager.PackageInfo))] : PkgMap).length = 1 := by
  refine ⟨by decide, by decide⟩

/-- C1 as amended: for a pending mapping of N distinct names (each record
named after its key), the reconciler's output consists of exactly those N
names, each exactly once, PROVIDED every name parsed from the authoritative
output is a pending name and no name is parsed twice; a parsed line whose
name is not (or no longer) pending instead appends an extra record with an
empty name, and a pending name parsed twice is no longer pending the second
time, so the claim's unconditional form fails. -/
theorem claim_C1 :
    ∀ (out : String) (packages : PkgMap),
      (packages.map Prod.fst).Nodup →
      (∀ kv ∈ packages, kv.2.Name = kv.1) →
      (apt.dpkgNames out).Nodup →
      (∀ n ∈ apt.dpkgNames out, n ∈ packages.map Prod.fst) →
      ((apt.reconcileDpkg out packages).map manager.PackageInfo.Name).Perm
        (packages.map Prod.fst) := by
  intro out packages h1 h2 h3 h4
  unfold apt.dpkgNames at h3 h4
  unfold apt.reconcileDpkg apt.ParseDpkgQueryOutput
  rw [List.map_append, List.map_map]
  have hmap := dpkg_fold_map (splitCh '\n' (trimLastCh '\n' out.data)) packages []
  have hnk : ∀ kv ∈ (List.foldl apt.processDpkgLine (packages, [])
      (splitCh '\n' (trimLastCh '\n' out.data))).1, kv.2.Name = kv.1 := by
    rw [hmap]
    intro kv hkv
    exact h2 kv (List.mem_of_mem_filter hkv)
  have hcongr : ((List.foldl apt.processDpkgLine (packages, [])
        (splitCh '\n' (trimLastCh '\n' out.data))).1.map
      (manager.PackageInfo.Name ∘ fun p => { p.2 with Status := manager.PackageStatusUnknown })) =
      ((List.foldl apt.processDpkgLine (packages, [])
        (splitCh '\n' (trimLastCh '\n' out.data))).1.map Prod.fst) := by
    apply List.map_congr_left
    intro kv hkv
    exact hnk kv hkv
  rw [hcongr]
  have := c1_fold (splitCh '\n' (trimLastCh '\n' out.data)) packages [] h1 h2 h3 h4
  simpa using this

/-- C1 witness: the amended claim applied to a two-name pending mapping and
an output that finds one of them. -/
theorem claim_C1_witness :
    ((apt.reconcileDpkg "pkgA install ok installed 2.0\n"
        [("pkgA", { Name := "pkgA", Version := "0.9", PackageManager := "apt" }),
         ("pkgB", { Name := "pkgB", Version := "1.1", PackageManager := "apt" })]).map
      manager.PackageInfo.Name).Perm ["pkgA", "pkgB"] :=
  claim_C1 "pkgA install ok installed 2.0\n"
    [("pkgA", { Name := "pkgA", Version := "0.9", PackageManager := "apt" }),
     ("pkgB", { Name := "pkgB", Version := "1.1", PackageManager := "apt" })]
    (by decide) (by decide) (by decide) (by decide)

theorem data_ne_nil {s : String} (h : s ≠ "") : s.data ≠ [] := by
  intro hd
  apply h
  cases s with
  | mk d =>
    simp only at hd
    rw [hd]

theorem find_at_head {l : List Char} {x : String × String × String}
    (h : apt.settingUpAt l = some x) : apt.settingUpFind l = some x := by
  cases l with
  | nil =>
    rw [show apt.settingUpAt ([] : List Char) = none from by decide] at h
    exact absurd h (by simp)
  | cons c t =>
    unfold apt.settingUpFind
    rw [h]

theorem dropPre_colon (arch : String) (h : ∀ c ∈ arch.data, apt.archChar c = true) :
    dropPreStr arch ":" = arch := by
  unfold dropPreStr
  rw [show (":" : String).data = [':'] from rfl]
  cases hd : arch.data with
  | nil => simp [List.isPrefixOf]
  | cons c t =>
    have hc : apt.archChar c = true := h c (hd ▸ List.mem_cons_self c t)
    have hne : c ≠ ':' := by
      rintro rfl
      exact absurd hc (by decide)
    have hpre : ([':'] : List Char).isPrefixOf (c :: t) = false := by
      cases hbe : (':' == c) with
      | false => simp [List.isPrefixOf, hbe]
      | true => exact absurd (beq_iff_eq.mp hbe).symm hne
    rw [hpre]
    simp

theorem settingUpAt_shape (pkg arch ver : String)
    (hp : pkg ≠ "") (hv : ver ≠ "")
    (hcp : ∀ c ∈ pkg.data, apt.nameChar c = true)
    (hca : ∀ c ∈ arch.data, apt.archChar c = true)
    (hcv : ∀ c ∈ ver.data, apt.verChar c = true) :
    apt.settingUpAt ("Setting up ".data ++
        (pkg.data ++ (':' :: (arch.data ++ (' ' :: '(' :: (ver.data ++ [')'])))))) =
      some (pkg, arch, ver) := by
  unfold apt.settingUpAt
  rw [dropLit_self]
  simp only []
  rw [tw_app pkg.data _ hcp, tw_stop _ (by decide : apt.nameChar ':' = false),
      List.append_nil]
  rw [dw_app pkg.data _ hcp, dw_stop _ (by decide : apt.nameChar ':' = false)]
  rw [if_neg (data_ne_nil hp)]
  simp only []
  rw [tw_app arch.data _ hca, tw_stop _ (by decide : apt.archChar ' ' = false),
      List.append_nil]
  rw [dw_app arch.data _ hca, dw_stop _ (by decide : apt.archChar ' ' = false)]
  rw [show (' ' :: '(' :: (ver.data ++ [')'])) = " (".data ++ (ver.data ++ [')']) from rfl]
  rw [dropLit_self]
  simp only []
  rw [tw_app ver.data _ hcv, tw_stop _ (by decide : apt.verChar ')' = false),
      List.append_nil]
  rw [dw_app ver.data _ hcv, dw_stop _ (by decide : apt.verChar ')' = false)]
  rw [if_neg (data_ne_nil hv)]
  simp only [asString_data]

theorem no_nl_line (pkg arch ver : String)
    (hcp : ∀ c ∈ pkg.data, apt.nameChar c = true)
    (hca : ∀ c ∈ arch.data, apt.archChar c = true)
    (hcv : ∀ c ∈ ver.data, apt.verChar c = true) :
    ∀ c ∈ ("Setting up ".data ++
        (pkg.data ++ (':' :: (arch.data ++ (' ' :: '(' :: (ver.data ++ [')'])))))),
      c ≠ '\n' := by
  intro c hc
  rcases List.mem_append.mp hc with h | h
  · intro heq; subst heq; exact absurd h (by decide)
  · rcases List.mem_append.mp h with h | h
    · intro heq; subst heq; exact absurd (hcp _ h) (by decide)
    · rcases List.mem_cons.mp h with h | h
      · intro heq; subst heq; exact absurd h (by decide)
      · rcases List.mem_append.mp h with h | h
        · intro heq; subst heq; exact absurd (hca _ h) (by decide)
        · rcases List.mem_cons.mp h with h | h
          · intro heq; subst heq; exact absurd h (by decide)
          · rcases List.mem_cons.mp h with h | h
            · intro heq; subst heq; exact absurd h (by decide)
            · rcases List.mem_append.mp h with h | h
              · intro heq; subst heq; exact absurd (hcv _ h) (by decide)
              · intro heq; subst heq; exact absurd h (by decide)

/-- C7: the concrete two-line install output parses to the two records of
the specification, and in general every `Setting up pkg:arch (ver)` line
built from the regex character classes yields exactly the record
`{name = pkg, architecture = arch, version = ver, status = installed}`. -/
theorem claim_C7 :
    (apt.ParseInstallOutput
        "Setting up libssl3:amd64 (3.0.2-0ubuntu1.9) ...\nSetting up openssl (3.0.2-0ubuntu1.9) ...\n" =
      [{ Name := "libssl3", Arch := "amd64", Version := "3.0.2-0ubuntu1.9",
         NewVersion := "3.0.2-0ubuntu1.9", Status := manager.PackageStatusInstalled,
         PackageManager := apt.pm },
       { Name := "openssl", Arch := "", Version := "3.0.2-0ubuntu1.9",
         NewVersion := "3.0.2-0ubuntu1.9", Status := manager.PackageStatusInstalled,
         PackageManager := apt.pm }]) ∧
    ∀ (pkg arch ver : String),
      pkg ≠ "" → ver ≠ "" →
      (∀ c ∈ pkg.data, apt.nameChar c = true) →
      (∀ c ∈ arch.data, apt.archChar c = true) →
      (∀ c ∈ ver.data, apt.verChar c = true) →
      apt.ParseInstallOutput ("Setting up " ++ pkg ++ ":" ++ arch ++ " (" ++ ver ++ ")") =
        [{ Name := pkg, Arch := arch, Version := ver, NewVersion := ver,
           Status := manager.PackageStatusInstalled, PackageManager := apt.pm }] := by
  constructor
  · decide
  · intro pkg arch ver hp hv hcp hca hcv
    have hdata : ("Setting up " ++ pkg ++ ":" ++ arch ++ " (" ++ ver ++ ")").data =
        "Setting up ".data ++
          (pkg.data ++ (':' :: (arch.data ++ (' ' :: '(' :: (ver.data ++ [')']))))) := by
      simp [String.data_append, List.append_assoc]
    have h5 : (ver.data ++ [')']).getLast? = some ')' := getLast?_app_some ver.data rfl
    have h4 : (' ' :: '(' :: (ver.data ++ [')'])).getLast? = some ')' := by
      rw [show (' ' :: '(' :: (ver.data ++ [')'])) = [' ', '('] ++ (ver.data ++ [')']) from rfl]
      exact getLast?_app_some _ h5
    have h3 : (arch.data ++ (' ' :: '(' :: (ver.data ++ [')']))).getLast? = some ')' :=
      getLast?_app_some _ h4
    have h2 : (':' :: (arch.data ++ (' ' :: '(' :: (ver.data ++ [')'])))).getLast? = some ')' := by
      rw [show (':' :: (arch.data ++ (' ' :: '(' :: (ver.data ++ [')'])))) =
            [':'] ++ (arch.data ++ (' ' :: '(' :: (ver.data ++ [')']))) from rfl]
      exact getLast?_app_some _ h3
    have h1 : (pkg.data ++ (':' :: (arch.data ++ (' ' :: '(' :: (ver.data ++ [')']))))).getLast? =
        some ')' := getLast?_app_some _ h2
    have hlast : ("Setting up " ++ pkg ++ ":" ++ arch ++ " (" ++ ver ++ ")").data.getLast? =
        some ')' := by
      rw [hdata]
      exact getLast?_app_some _ h1
    have hnonl : ∀ c ∈ ("Setting up " ++ pkg ++ ":" ++ arch ++ " (" ++ ver ++ ")").data,
        c ≠ '\n' := by
      intro c hc
      rw [hdata] at hc
      exact no_nl_line pkg arch ver hcp hca hcv c hc
    unfold apt.ParseInstallOutput
    rw [trimLastStr_keep '\n' _ hlast (by decide), splitNl_single _ hnonl,
        List.foldl_cons, List.foldl_nil]
    unfold apt.installStep
    rw [hdata, find_at_head (settingUpAt_shape pkg arch ver hp hv hcp hca hcv)]
    simp only []
    rw [if_neg hp, dropPre_colon arch hca]
    simp

/-- C7 witness: the general part applied at a concrete line. -/
theorem claim_C7_witness :
    apt.ParseInstallOutput ("Setting up " ++ "zlib1g" ++ ":" ++ "amd64" ++ " (" ++ "1.2.11" ++ ")") =
      [{ Name := "zlib1g", Arch := "amd64", Version := "1.2.11", NewVersion := "1.2.11",
         Status := manager.PackageStatusInstalled, PackageManager := apt.pm }] :=
  claim_C7.2 "zlib1g" "amd64" "1.2.11" (by decide) (by decide) (by decide) (by decide) (by decide)

theorem getLast?_cons_app {c : Char} {X : List Char} {d : Char}
    (h : X.getLast? = some d) : (c :: X).getLast? = some d := by
  rw [show (c :: X) = [c] ++ X from rfl]
  exact getLast?_app_some _ h

theorem no_nl_upg (n c cv a ver : String)
    (h1 : ∀ ch ∈ n.data, goSpace ch = false)
    (h2 : ∀ ch ∈ c.data, goSpace ch = false)
    (h3 : ∀ ch ∈ cv.data, goSpace ch = false)
    (h4 : ∀ ch ∈ a.data, goSpace ch = false)
    (h5 : ∀ ch ∈ ver.data, goSpace ch = false) :
    ∀ ch ∈ (n.data ++ ('/' :: (c.data ++ (' ' :: (cv.data ++ (' ' :: (a.data ++
        (' ' :: ("[upgradable".data ++ (' ' :: ("from:".data ++
        (' ' :: (ver.data ++ [']']))))))))))))), ch ≠ '\n' := by
  have hnl : goSpace '\n' = true := by decide
  intro ch hc heq
  subst heq
  rcases List.mem_append.mp hc with h | h
  · exact (by decide : goSpace '\n' ≠ false) (h1 _ h)
  · rcases List.mem_cons.mp h with h | h
    · exact absurd h (by decide)
    · rcases List.mem_append.mp h with h | h
      · exact (by decide : goSpace '\n' ≠ false) (h2 _ h)
      · rcases List.mem_cons.mp h with h | h
        · exact absurd h (by decide)
        · rcases List.mem_append.mp h with h | h
          · exact (by decide : goSpace '\n' ≠ false) (h3 _ h)
          · rcases List.mem_cons.mp h with h | h
            · exact absurd h (by decide)
            · rcases List.mem_append.mp h with h | h
              · exact (by decide : goSpace '\n' ≠ false) (h4 _ h)
              · rcases List.mem_cons.mp h with h | h
                · exact absurd h (by decide)
                · rcases List.mem_append.mp h with h | h
                  · exact absurd h (by decide)
                  · rcases List.mem_cons.mp h with h | h
                    · exact absurd h (by decide)
                    · rcases List.mem_append.mp h with h | h
                      · exact absurd h (by decide)
                      · rcases List.mem_cons.mp h with h | h
                        · exact absurd h (by decide)
                        · rcases List.mem_append.mp h with h | h
                          · exact (by decide : goSpace '\n' ≠ false) (h5 _ h)
                          · exact absurd h (by decide)

/-- C8: the concrete upgradable line parses to exactly the record of the
specification, and in general every `name/category candidate arch
[upgradable from: current]` line (whitespace-free tokens, slash-free name
and category) yields the record with `version` the bracketed value —
stripped of the trailing bracket — and `candidate_version` the leading
value, tagged upgradable. -/
theorem claim_C8 :
    (apt.ParseListUpgradableOutput "pkgX/release 2.0 amd64 [upgradable from: 1.0]" =
      some [{ Name := "pkgX", Version := "1.0", NewVersion := "2.0", Category := "release",
              Arch := "amd64", Status := manager.PackageStatusUpgradable,
              PackageManager := apt.pm }]) ∧
    ∀ (n c cv a ver : String),
      n ≠ "" → c ≠ "" → cv ≠ "" → a ≠ "" →
      (∀ ch ∈ n.data, goSpace ch = false) → (∀ ch ∈ n.data, ch ≠ '/') →
      (∀ ch ∈ c.data, goSpace ch = false) → (∀ ch ∈ c.data, ch ≠ '/') →
      (∀ ch ∈ cv.data, goSpace ch = false) →
      (∀ ch ∈ a.data, goSpace ch = false) →
      (∀ ch ∈ ver.data, goSpace ch = false) →
      strStarts (n ++ "/" ++ c ++ " " ++ cv ++ " " ++ a ++ " [upgradable from: " ++ ver ++ "]")
        "Listing..." = false →
      apt.ParseListUpgradableOutput
          (n ++ "/" ++ c ++ " " ++ cv ++ " " ++ a ++ " [upgradable from: " ++ ver ++ "]") =
        some [{ Name := n, Version := ver, NewVersion := cv, Category := c, Arch := a,
                Status := manager.PackageStatusUpgradable, PackageManager := apt.pm }] := by
  constructor
  · decide
  · intro n c cv a ver hn hc hcv ha hns hnsl hcs hcsl hcvs has hvers hL
    have hdata : (n ++ "/" ++ c ++ " " ++ cv ++ " " ++ a ++ " [upgradable from: " ++ ver ++ "]").data =
        n.data ++ ('/' :: (c.data ++ (' ' :: (cv.data ++ (' ' :: (a.data ++
          (' ' :: ("[upgradable".data ++ (' ' :: ("from:".data ++
          (' ' :: (ver.data ++ [']'])))))))))))) := by
      simp [String.data_append, List.append_assoc]
    have hlast : (n ++ "/" ++ c ++ " " ++ cv ++ " " ++ a ++ " [upgradable from: " ++ ver ++ "]").data.getLast? =
        some ']' := by
      have e1 : (ver.data ++ [']']).getLast? = some ']' := getLast?_app_some _ rfl
      have e2 : (' ' :: (ver.data ++ [']'])).getLast? = some ']' := getLast?_cons_app e1
      have e3 : ("from:".data ++ (' ' :: (ver.data ++ [']']))).getLast? = some ']' :=
        getLast?_app_some _ e2
      have e4 : (' ' :: ("from:".data ++ (' ' :: (ver.data ++ [']'])))).getLast? = some ']' :=
        getLast?_cons_app e3
      have e5 : ("[upgradable".data ++ (' ' :: ("from:".data ++ (' ' :: (ver.data ++ [']']))))).getLast? =
          some ']' := getLast?_app_some _ e4
      have e6 : (' ' :: ("[upgradable".data ++ (' ' :: ("from:".data ++ (' ' :: (ver.data ++ [']'])))))).getLast? =
          some ']' := getLast?_cons_app e5
      have e7 : (a.data ++ (' ' :: ("[upgradable".data ++ (' ' :: ("from:".data ++ (' ' :: (ver.data ++ [']']))))))).getLast? =
          some ']' := getLast?_app_some _ e6
      have e8 : (' ' :: (a.data ++ (' ' :: ("[upgradable".data ++ (' ' :: ("from:".data ++ (' ' :: (ver.data ++ [']'])))))))).getLast? =
          some ']' := getLast?_cons_app e7
      have e9 : (cv.data ++ (' ' :: (a.data ++ (' ' :: ("[upgradable".data ++ (' ' :: ("from:".data ++ (' ' :: (ver.data ++ [']']))))))))).getLast? =
          some ']' := getLast?_app_some _ e8
      have e10 : (' ' :: (cv.data ++ (' ' :: (a.data ++ (' ' :: ("[upgradable".data ++ (' ' :: ("from:".data ++ (' ' :: (ver.data ++ [']'])))))))))).getLast? =
          some ']' := getLast?_cons_app e9
      have e11 : (c.data ++ (' ' :: (cv.data ++ (' ' :: (a.data ++ (' ' :: ("[upgradable".data ++ (' ' :: ("from:".data ++ (' ' :: (ver.data ++ [']']))))))))))).getLast? =
          some ']' := getLast?_app_some _ e10
      have e12 : ('/' :: (c.data ++ (' ' :: (cv.data ++ (' ' :: (a.data ++ (' ' :: ("[upgradable".data ++ (' ' :: ("from:".data ++ (' ' :: (ver.data ++ [']'])))))))))))).getLast? =
          some ']' := getLast?_cons_app e11
      rw [hdata]
      exact getLast?_app_some _ e12
    have hnonl : ∀ ch ∈ (n ++ "/" ++ c ++ " " ++ cv ++ " " ++ a ++ " [upgradable from: " ++ ver ++ "]").data,
        ch ≠ '\n' := by
      intro ch hch
      rw [hdata] at hch
      exact no_nl_upg n c cv a ver hns hcs hcvs has hvers ch hch
    have hfields : fieldsCl ((n ++ "/" ++ c ++ " " ++ cv ++ " " ++ a ++ " [upgradable from: " ++ ver ++ "]").data) =
        [n.data ++ '/' :: c.data, cv.data, a.data, "[upgradable".data, "from:".data,
         ver.data ++ [']']] := by
      rw [hdata]
      have hassoc : n.data ++ ('/' :: (c.data ++ (' ' :: (cv.data ++ (' ' :: (a.data ++
            (' ' :: ("[upgradable".data ++ (' ' :: ("from:".data ++
            (' ' :: (ver.data ++ [']'])))))))))))) =
          (n.data ++ '/' :: c.data) ++ (' ' :: (cv.data ++ (' ' :: (a.data ++
            (' ' :: ("[upgradable".data ++ (' ' :: ("from:".data ++
            (' ' :: (ver.data ++ [']'])))))))))) := by
        simp [List.append_assoc]
      rw [hassoc]
      rw [fields_token (n.data ++ '/' :: c.data) _ (by simp)
        (by
          intro ch hch
          rcases List.mem_append.mp hch with h | h
          · exact hns ch h
          · rcases List.mem_cons.mp h with h | h
            · rw [h]; decide
            · exact hcs ch h)]
      rw [fields_token cv.data _ (data_ne_nil hcv) hcvs]
      rw [fields_token a.data _ (data_ne_nil ha) has]
      rw [fields_token "[upgradable".data _ (by decide) (by decide)]
      rw [fields_token "from:".data _ (by decide) (by decide)]
      rw [fields_one (ver.data ++ [']'])
        (by simp)
        (by
          intro ch hch
          rcases List.mem_append.mp hch with h | h
          · exact hvers ch h
          · rcases List.mem_cons.mp h with h | h
            · rw [h]; decide
            · simp at h)]
    have hsplit : splitCh '/' (n.data ++ '/' :: c.data) = [n.data, c.data] := by
      unfold splitCh
      rw [splitAny_app n.data _ (fun ch hch => by simp [hnsl ch hch])]
      rw [splitAny_sep _ (by simp)]
      rw [splitAny_no c.data (fun ch hch => by simp [hcsl ch hch])]
      simp
    unfold apt.ParseListUpgradableOutput
    rw [trimLastStr_keep '\n' _ hlast (by decide), splitNl_single _ hnonl]
    rw [List.foldlM_cons]
    unfold apt.upgradableStep
    rw [hL]
    rw [if_neg (by simp)]
    rw [if_pos (by
      rw [hdata]
      simp [List.length_append])]
    have hgf : goFields (n ++ "/" ++ c ++ " " ++ cv ++ " " ++ a ++ " [upgradable from: " ++ ver ++ "]") =
        [(n.data ++ '/' :: c.data).asString, cv, a, "[upgradable", "from:",
         (ver.data ++ [']']).asString] := by
      unfold goFields
      rw [hfields]
      simp only [List.map_cons, List.map_nil, asString_data]
      rfl
    rw [hgf]
    simp only [List.get?]
    rw [show ((n.data ++ '/' :: c.data).asString).data = n.data ++ '/' :: c.data from rfl]
    rw [hsplit]
    simp only [List.map_cons, List.map_nil, asString_data, List.getD, List.get?]
    have htrim : trimLastChStr ']' ((ver.data ++ [']']).asString) = ver := by
      unfold trimLastChStr trimLastCh
      rw [show ((ver.data ++ [']']).asString).data = ver.data ++ [']'] from rfl]
      have hv : (ver.data ++ [']']).getLast? = some ']' := getLast?_app_some _ rfl
      rw [hv]
      simp [List.dropLast_concat, asString_data]
    rw [htrim]
    simp [List.foldlM_nil]

/-- C8 witness: the general part applied at a concrete upgradable line. -/
theorem claim_C8_witness :
    apt.ParseListUpgradableOutput
        ("cloudflared" ++ "/" ++ "unknown" ++ " " ++ "2023.4.0" ++ " " ++ "amd64" ++
         " [upgradable from: " ++ "2023.3.1" ++ "]") =
      some [{ Name := "cloudflared", Version := "2023.3.1", NewVersion := "2023.4.0",
              Category := "unknown", Arch := "amd64",
              Status := manager.PackageStatusUpgradable, PackageManager := apt.pm }] :=
  claim_C8.2 "cloudflared" "unknown" "2023.4.0" "amd64" "2023.3.1"
    (by decide) (by decide) (by decide) (by decide) (by decide) (by decide)
    (by decide) (by decide) (by decide) (by decide) (by decide) (by decide)

end Syspkg
